import Mathlib

/-!
Shallow embedding of the Networking-Graph repository (edge.py, graph.py,
weighted_graph.py): an undirected graph stored as a vertex list plus
per-vertex adjacency lists of directional edges, and a weighted variant.

Python semantics modelled explicitly:
* list subscription `xs[i]` accepts negative indices (wrapping from the
  end) and raises IndexError outside `[-len, len)`: `pyIdx` / `pyGet`;
* `list.index(x)` returns the first matching position and raises
  ValueError when absent: `pyIndex`;
* statements run in order, so an exception raised by a later statement
  leaves earlier mutations in place: fallible mutators return the state
  reached together with an optional error.
-/

namespace NetworkingGraph

/-- The two failure kinds the spec names: IndexError ("IndexOutOfBounds")
and ValueError ("NotFound"). -/
inductive PyErr where
  | indexOutOfBounds
  | notFound
deriving DecidableEq

/-- `edge.py`: an ordered pair of vertex indices (Python ints). -/
structure Edge where
  u : Int
  v : Int
deriving DecidableEq

/-- `Edge.reversed`: swap the endpoints. -/
def Edge.reversed (e : Edge) : Edge := ⟨e.v, e.u⟩

/-- Python index normalisation for a sequence of length `n`: a negative
index wraps by `+ n`; the result is the in-range position, or `none`
(IndexError) outside `[-n, n)`. -/
def pyIdx (n : Nat) (i : Int) : Option Nat :=
  if 0 ≤ i ∧ i < n then some i.toNat
  else if -(n : Int) ≤ i ∧ i < 0 then some (i + n).toNat
  else none

/-- Python `xs[i]` for reading. -/
def pyGet {α : Type} (xs : List α) (i : Int) : Option α :=
  (pyIdx xs.length i).bind fun j => xs.get? j

/-- Replace the element at position `j` by `f` of it (in-place list
mutation at a known-valid position). -/
def listModify {α : Type} (xs : List α) (j : Nat) (f : α → α) : List α :=
  match xs, j with
  | [], _ => []
  | x :: rest, 0 => f x :: rest
  | x :: rest, Nat.succ j => x :: listModify rest j f

/-- Python `xs.index(x)`: position of the first equal element, `none`
(ValueError) when absent. -/
def pyIndex {α : Type} [DecidableEq α] (xs : List α) (x : α) : Option Nat :=
  match xs with
  | [] => none
  | y :: rest => if y = x then some 0 else (pyIndex rest x).map (fun j => j + 1)

/-- The body shared by `Graph.add_edge` and (by inheritance)
`WeightedGraph.add_edge`: append `e` to the list at index `u`, then
append `er` (the reversed edge) to the list at index `v`.  The first
append happens before the second index is checked, exactly as the two
Python statements run, so a failure on `v` leaves the first append in
place. -/
def addEdgeCore {E : Type} (edges : List (List E)) (u v : Int) (e er : E) :
    List (List E) × Option PyErr :=
  match pyIdx edges.length u with
  | none => (edges, some .indexOutOfBounds)
  | some ju =>
    let edges1 := listModify edges ju (fun l => l ++ [e])
    match pyIdx edges1.length v with
    | none => (edges1, some .indexOutOfBounds)
    | some jv => (listModify edges1 jv (fun l => l ++ [er]), none)

/-- `graph.py`: `Graph` owns the vertex sequence `_vertices` and the
parallel adjacency sequence `_edges`. -/
structure Graph (V : Type) where
  vertices : List V
  edges : List (List Edge)
deriving DecidableEq

/-- `vertex_at` seen as a function of the vertex list (shared between
`Graph` and the inherited method of `WeightedGraph`). -/
def vertexAtL {V : Type} (vs : List V) (i : Int) : Except PyErr V :=
  match pyGet vs i with
  | some x => .ok x
  | none => .error .indexOutOfBounds

/-- `index_of` seen as a function of the vertex list. -/
def indexOfL {V : Type} [DecidableEq V] (vs : List V) (x : V) : Except PyErr Nat :=
  match pyIndex vs x with
  | some j => .ok j
  | none => .error .notFound

/-- `list(map(self.vertex_at, [e.v for e in adjacency]))`: look each
`e.v` up in the vertex list, left to right, propagating the first
IndexError. -/
def mapVertexAt {V : Type} (vs : List V) (es : List Edge) : Except PyErr (List V) :=
  match es with
  | [] => .ok []
  | e :: rest =>
    match vertexAtL vs e.v with
    | .error err => .error err
    | .ok x =>
      match mapVertexAt vs rest with
      | .error err => .error err
      | .ok xs => .ok (x :: xs)

namespace Graph

variable {V : Type}

/-- `Graph.vertex_count`. -/
def vertex_count (g : Graph V) : Nat := g.vertices.length

/-- `Graph.edge_count`: sum of the adjacency-list lengths. -/
def edge_count (g : Graph V) : Nat := (g.edges.map List.length).sum

/-- `Graph.add_vertex`: append the vertex and an empty adjacency list,
return the new state together with the returned index
(`vertex_count - 1` after the append). -/
def add_vertex (g : Graph V) (x : V) : Graph V × Nat :=
  let g1 : Graph V := ⟨g.vertices ++ [x], g.edges ++ [[]]⟩
  (g1, g1.vertex_count - 1)

/-- `Graph.add_edge`: append `edge` at `edge.u` and `edge.reversed()` at
`edge.v`; returns the state reached and the error, if any. -/
def add_edge (g : Graph V) (e : Edge) : Graph V × Option PyErr :=
  let p := addEdgeCore g.edges e.u e.v e e.reversed
  (⟨g.vertices, p.1⟩, p.2)

/-- `Graph.add_edge_by_indices`. -/
def add_edge_by_indices (g : Graph V) (u v : Int) : Graph V × Option PyErr :=
  g.add_edge ⟨u, v⟩

/-- `Graph.add_edge_by_vertices`: resolve both values with
`list.index` before any mutation. -/
def add_edge_by_vertices [DecidableEq V] (g : Graph V) (a b : V) :
    Graph V × Option PyErr :=
  match pyIndex g.vertices a with
  | none => (g, some .notFound)
  | some u =>
    match pyIndex g.vertices b with
    | none => (g, some .notFound)
    | some v => g.add_edge_by_indices u v

/-- `Graph.vertex_at`. -/
def vertex_at (g : Graph V) (i : Int) : Except PyErr V := vertexAtL g.vertices i

/-- `Graph.index_of`. -/
def index_of [DecidableEq V] (g : Graph V) (x : V) : Except PyErr Nat :=
  indexOfL g.vertices x

/-- `Graph.neighbors_for_index`. -/
def neighbors_for_index (g : Graph V) (i : Int) : Except PyErr (List V) :=
  match pyGet g.edges i with
  | none => .error .indexOutOfBounds
  | some es => mapVertexAt g.vertices es

/-- `Graph.edges_for_index`. -/
def edges_for_index (g : Graph V) (i : Int) : Except PyErr (List Edge) :=
  match pyGet g.edges i with
  | none => .error .indexOutOfBounds
  | some es => .ok es

/-- Well-formedness as maintained by the constructor, `add_vertex` and
in-range edge insertion: the adjacency sequence parallels the vertex
sequence, and every stored edge endpoint is a valid non-negative index. -/
def WF (g : Graph V) : Prop :=
  g.edges.length = g.vertices.length ∧
  ∀ l ∈ g.edges, ∀ e ∈ l,
    (0 ≤ e.u ∧ e.u < (g.vertices.length : Int)) ∧
    (0 ≤ e.v ∧ e.v < (g.vertices.length : Int))

instance (g : Graph V) : Decidable g.WF := by
  unfold WF; infer_instance

end Graph

/-- Modelled from the spec: `weighted_edge.py` is imported by
`weighted_graph.py` but is not part of the sources; per the spec a
`WeightedEdge` is an `Edge` plus a numeric `weight`. The weight type is
kept abstract since the structure only stores and returns it. -/
structure WeightedEdge (W : Type) where
  u : Int
  v : Int
  weight : W
deriving DecidableEq

/-- Modelled from the spec: the reverse entry of a weighted edge swaps
the endpoints and carries the same weight. -/
def WeightedEdge.reversed {W : Type} (e : WeightedEdge W) : WeightedEdge W :=
  ⟨e.v, e.u, e.weight⟩

/-- `weighted_graph.py`: `WeightedGraph` re-declares `_vertices` and
`_edges`, the latter holding weighted edges. -/
structure WeightedGraph (V W : Type) where
  vertices : List V
  edges : List (List (WeightedEdge W))
deriving DecidableEq

/-- The loop of `neighbors_for_index_with_weights`: pair
`vertex_at(edge.v)` with `edge.weight` for each stored edge in order. -/
def mapWeightedAt {V W : Type} (vs : List V) (es : List (WeightedEdge W)) :
    Except PyErr (List (V × W)) :=
  match es with
  | [] => .ok []
  | e :: rest =>
    match vertexAtL vs e.v with
    | .error err => .error err
    | .ok x =>
      match mapWeightedAt vs rest with
      | .error err => .error err
      | .ok xs => .ok ((x, e.weight) :: xs)

namespace WeightedGraph

variable {V W : Type}

/-- Inherited `vertex_count`. -/
def vertex_count (g : WeightedGraph V W) : Nat := g.vertices.length

/-- Inherited `edge_count`. -/
def edge_count (g : WeightedGraph V W) : Nat := (g.edges.map List.length).sum

/-- Inherited `Graph.add_edge` applied to a weighted edge: same two
appends, the reversal carrying the weight. -/
def add_edge (g : WeightedGraph V W) (e : WeightedEdge W) :
    WeightedGraph V W × Option PyErr :=
  let p := addEdgeCore g.edges e.u e.v e e.reversed
  (⟨g.vertices, p.1⟩, p.2)

/-- `WeightedGraph.add_edge_by_indices`. -/
def add_edge_by_indices (g : WeightedGraph V W) (u v : Int) (w : W) :
    WeightedGraph V W × Option PyErr :=
  g.add_edge ⟨u, v, w⟩

/-- `WeightedGraph.add_edge_by_vertices`. -/
def add_edge_by_vertices [DecidableEq V] (g : WeightedGraph V W) (a b : V) (w : W) :
    WeightedGraph V W × Option PyErr :=
  match pyIndex g.vertices a with
  | none => (g, some .notFound)
  | some u =>
    match pyIndex g.vertices b with
    | none => (g, some .notFound)
    | some v => g.add_edge_by_indices u v w

/-- Inherited `vertex_at`. -/
def vertex_at (g : WeightedGraph V W) (i : Int) : Except PyErr V :=
  vertexAtL g.vertices i

/-- `WeightedGraph.neighbors_for_index_with_weights`: iterate
`edges_for_index(index)` pairing neighbour values with weights. -/
def neighbors_for_index_with_weights (g : WeightedGraph V W) (i : Int) :
    Except PyErr (List (V × W)) :=
  match pyGet g.edges i with
  | none => .error .indexOutOfBounds
  | some es => mapWeightedAt g.vertices es

/-- Well-formedness for the weighted variant (same shape as
`Graph.WF`). -/
def WF (g : WeightedGraph V W) : Prop :=
  g.edges.length = g.vertices.length ∧
  ∀ l ∈ g.edges, ∀ e ∈ l,
    (0 ≤ e.u ∧ e.u < (g.vertices.length : Int)) ∧
    (0 ≤ e.v ∧ e.v < (g.vertices.length : Int))

instance (g : WeightedGraph V W) : Decidable g.WF := by
  unfold WF; infer_instance

end WeightedGraph

/-- The state produced by a successful `Graph.add_edge_by_indices(u, v)`
on in-range non-negative indices: the forward edge appended at `u`, then
the reversed edge appended at `v` (a proof-level description of the
result, used to state the insertion lemmas compactly). -/
def afterAddEdge {V : Type} (g : Graph V) (u v : Nat) : Graph V :=
  Graph.mk g.vertices
    (listModify (listModify g.edges u (fun l => l ++ [Edge.mk (u : Int) (v : Int)]))
      v (fun l => l ++ [Edge.mk (v : Int) (u : Int)]))

/-- The state produced by a successful
`WeightedGraph.add_edge_by_indices(u, v, w)` on in-range non-negative
indices. -/
def wAfterAddEdge {V W : Type} (g : WeightedGraph V W) (u v : Nat) (w : W) :
    WeightedGraph V W :=
  WeightedGraph.mk g.vertices
    (listModify
      (listModify g.edges u (fun l => l ++ [WeightedEdge.mk (u : Int) (v : Int) w]))
      v (fun l => l ++ [WeightedEdge.mk (v : Int) (u : Int) w]))

/-- A three-vertex graph with no edges (concrete test instance). -/
def gS3 : Graph Nat := ⟨[10, 20, 30], [[], [], []]⟩

/-- A two-vertex graph with no edges (concrete test instance). -/
def gS2 : Graph Nat := ⟨[10, 20], [[], []]⟩

/-- A three-vertex graph holding one undirected edge 0–1 (concrete test
instance). -/
def gE : Graph Nat := ⟨[10, 20, 30], [[⟨0, 1⟩], [⟨1, 0⟩], []]⟩

/-- A two-vertex weighted graph with no edges (concrete test instance). -/
def wS : WeightedGraph Nat Nat := ⟨[10, 20], [[], []]⟩

/-! ### Basic lemmas about the Python-semantics helpers -/

theorem pyIdx_coe (n u : Nat) (h : u < n) : pyIdx n (u : Int) = some u := by
  have h0 : ¬((u : Int) < 0) := by omega
  have h1 : (0 : Int) ≤ (u : Int) ∧ (u : Int) < (n : Int) := by omega
  simp [pyIdx, h0, h1]

theorem pyIdx_eq_none_iff (n : Nat) (i : Int) :
    pyIdx n i = none ↔ (i < -(n : Int) ∨ (n : Int) ≤ i) := by
  unfold pyIdx
  split
  · simp only [reduceCtorEq, false_iff]
    omega
  · split
    · simp only [reduceCtorEq, false_iff]
      omega
    · simp only [true_iff]
      omega

theorem pyIdx_eq_some_iff (n : Nat) (i : Int) (j : Nat) :
    pyIdx n i = some j ↔
      ((0 ≤ i ∧ i < (n : Int) ∧ (j : Int) = i) ∨
       (i < 0 ∧ -(n : Int) ≤ i ∧ (j : Int) = i + n)) := by
  unfold pyIdx
  split
  · simp only [Option.some_inj]
    omega
  · split
    · simp only [Option.some_inj]
      omega
    · simp only [reduceCtorEq, false_iff]
      omega

theorem listModify_length {α : Type} (xs : List α) (j : Nat) (f : α → α) :
    (listModify xs j f).length = xs.length := by
  induction xs generalizing j with
  | nil => rfl
  | cons x rest ih => cases j <;> simp [listModify, ih]

theorem listModify_get?_self {α : Type} (xs : List α) (j : Nat) (f : α → α) :
    j < xs.length → (listModify xs j f).get? j = (xs.get? j).map f := by
  induction xs generalizing j with
  | nil => intro h; simp at h
  | cons x rest ih =>
    intro h
    cases j with
    | zero => simp [listModify]
    | succ j => simpa [listModify] using ih j (by simpa using h)

theorem listModify_get?_ne {α : Type} (xs : List α) (i j : Nat) (f : α → α) :
    i ≠ j → (listModify xs j f).get? i = xs.get? i := by
  induction xs generalizing i j with
  | nil => intro _; rfl
  | cons x rest ih =>
    intro h
    cases j with
    | zero =>
      cases i with
      | zero => exact absurd rfl h
      | succ i => simp [listModify]
    | succ j =>
      cases i with
      | zero => simp [listModify]
      | succ i => simpa [listModify] using ih i j (by omega)

theorem listModify_sum_append {α : Type} (xs : List (List α)) (j : Nat) (a : α) :
    j < xs.length →
      ((listModify xs j (fun l => l ++ [a])).map List.length).sum
        = (xs.map List.length).sum + 1 := by
  induction xs generalizing j with
  | nil => intro h; simp at h
  | cons x rest ih =>
    intro h
    cases j with
    | zero => simp [listModify]; omega
    | succ j =>
      have := ih j (by simpa using h)
      simp [listModify, this]
      omega

theorem pyIndex_eq_none_iff {α : Type} [DecidableEq α] (xs : List α) (x : α) :
    pyIndex xs x = none ↔ x ∉ xs := by
  induction xs with
  | nil => simp [pyIndex]
  | cons y rest ih =>
    by_cases hy : y = x
    · subst hy; simp [pyIndex]
    · have hxy : x ≠ y := fun h => hy h.symm
      simp [pyIndex, hy, Option.map_eq_none', ih, hxy]

theorem pyIndex_first {α : Type} [DecidableEq α] (xs : List α) (x : α) (j : Nat) :
    pyIndex xs x = some j →
      xs.get? j = some x ∧ ∀ k, k < j → xs.get? k ≠ some x := by
  induction xs generalizing j with
  | nil => intro h; simp [pyIndex] at h
  | cons y rest ih =>
    intro h
    by_cases hy : y = x
    · subst hy
      simp [pyIndex] at h
      subst h
      exact ⟨rfl, fun k hk => by omega⟩
    · simp only [pyIndex, if_neg hy, Option.map_eq_some'] at h
      obtain ⟨j0, hj0, rfl⟩ := h
      obtain ⟨hget, hfirst⟩ := ih j0 hj0
      refine ⟨by simpa using hget, ?_⟩
      intro k hk
      cases k with
      | zero =>
        simp only [List.get?, ne_eq, Option.some_inj]
        exact hy
      | succ k => simpa using hfirst k (by omega)

theorem pyIndex_nodup {α : Type} [DecidableEq α] (xs : List α) (i : Nat) (x : α) :
    xs.Nodup → xs.get? i = some x → pyIndex xs x = some i := by
  induction xs generalizing i with
  | nil => intro _ h; simp at h
  | cons y rest ih =>
    intro hnd hget
    obtain ⟨hy, hrest⟩ := List.nodup_cons.mp hnd
    cases i with
    | zero =>
      simp only [List.get?] at hget
      injection hget with hget
      simp [pyIndex, hget]
    | succ i =>
      simp only [List.get?] at hget
      have hx : x ∈ rest := List.get?_mem hget
      have hyx : y ≠ x := fun h => hy (h ▸ hx)
      simp [pyIndex, hyx, ih i hrest hget]

theorem vertexAtL_of_get? {V : Type} (vs : List V) (u : Nat) (x : V) :
    vs.get? u = some x → vertexAtL vs (u : Int) = .ok x := by
  intro h
  have hu : u < vs.length := by
    rcases List.get?_eq_some.mp h with ⟨hlt, _⟩
    exact hlt
  unfold vertexAtL pyGet
  rw [pyIdx_coe _ _ hu, Option.some_bind, h]

theorem vertexAtL_valid {V : Type} (vs : List V) (i : Int) :
    0 ≤ i → i < (vs.length : Int) →
      ∃ x, vertexAtL vs i = .ok x ∧ vs.get? i.toNat = some x := by
  intro h0 h1
  have hlt : i.toNat < vs.length := by omega
  rcases List.get?_eq_some.mpr ⟨hlt, rfl⟩ with h
  have hi : (i.toNat : Int) = i := by omega
  have h2 := vertexAtL_of_get? vs i.toNat _ h
  rw [hi] at h2
  exact ⟨_, h2, h⟩

theorem mapVertexAt_append_single {V : Type} (vs : List V) (es : List Edge)
    (e : Edge) (xs : List V) (x : V) :
    mapVertexAt vs es = .ok xs → vertexAtL vs e.v = .ok x →
      mapVertexAt vs (es ++ [e]) = .ok (xs ++ [x]) := by
  induction es generalizing xs with
  | nil =>
    intro hes hx
    simp only [mapVertexAt, Except.ok.injEq] at hes
    subst hes
    simp [mapVertexAt, hx]
  | cons e0 rest ih =>
    intro hes hx
    simp only [mapVertexAt] at hes
    rw [List.cons_append]
    cases h0 : vertexAtL vs e0.v with
    | error err => rw [h0] at hes; cases hes
    | ok x0 =>
      rw [h0] at hes
      cases hrest : mapVertexAt vs rest with
      | error err => rw [hrest] at hes; cases hes
      | ok xs0 =>
        rw [hrest] at hes
        simp only [Except.ok.injEq] at hes
        subst hes
        simp only [mapVertexAt]
        rw [h0, ih xs0 hrest hx]
        rfl

theorem mapVertexAt_total {V : Type} (vs : List V) (es : List Edge) :
    (∀ e ∈ es, 0 ≤ e.v ∧ e.v < (vs.length : Int)) →
      ∃ xs, mapVertexAt vs es = .ok xs ∧ xs.length = es.length ∧
        ∀ (k : Nat) (e : Edge), es.get? k = some e →
          ∃ x, xs.get? k = some x ∧ vertexAtL vs e.v = .ok x := by
  induction es with
  | nil => intro _; exact ⟨[], rfl, rfl, fun k e hk => by simp at hk⟩
  | cons e0 rest ih =>
    intro h
    obtain ⟨hv0, hv1⟩ := h e0 (List.mem_cons_self e0 rest)
    obtain ⟨x0, hx0, _⟩ := vertexAtL_valid vs e0.v hv0 hv1
    obtain ⟨xs, hxs, hlen, hpt⟩ := ih (fun e he => h e (List.mem_cons_of_mem e0 he))
    refine ⟨x0 :: xs, ?_, by simp [hlen], ?_⟩
    · simp [mapVertexAt, hx0, hxs]
    · intro k e hk
      cases k with
      | zero =>
        simp only [List.get?, Option.some_inj] at hk
        subst hk
        exact ⟨x0, rfl, hx0⟩
      | succ k =>
        simp only [List.get?] at hk ⊢
        exact hpt k e hk

theorem mapWeightedAt_append_single {V W : Type} (vs : List V)
    (es : List (WeightedEdge W)) (e : WeightedEdge W) (xs : List (V × W)) (x : V) :
    mapWeightedAt vs es = .ok xs → vertexAtL vs e.v = .ok x →
      mapWeightedAt vs (es ++ [e]) = .ok (xs ++ [(x, e.weight)]) := by
  induction es generalizing xs with
  | nil =>
    intro hes hx
    simp only [mapWeightedAt, Except.ok.injEq] at hes
    subst hes
    simp [mapWeightedAt, hx]
  | cons e0 rest ih =>
    intro hes hx
    simp only [mapWeightedAt] at hes
    rw [List.cons_append]
    cases h0 : vertexAtL vs e0.v with
    | error err => rw [h0] at hes; cases hes
    | ok x0 =>
      rw [h0] at hes
      cases hrest : mapWeightedAt vs rest with
      | error err => rw [hrest] at hes; cases hes
      | ok xs0 =>
        rw [hrest] at hes
        simp only [Except.ok.injEq] at hes
        subst hes
        simp only [mapWeightedAt]
        rw [h0, ih xs0 hrest hx]
        rfl

theorem mapWeightedAt_total {V W : Type} (vs : List V) (es : List (WeightedEdge W)) :
    (∀ e ∈ es, 0 ≤ e.v ∧ e.v < (vs.length : Int)) →
      ∃ xs, mapWeightedAt vs es = .ok xs ∧ xs.length = es.length ∧
        ∀ (k : Nat) (e : WeightedEdge W), es.get? k = some e →
          ∃ x, xs.get? k = some (x, e.weight) ∧ vertexAtL vs e.v = .ok x := by
  induction es with
  | nil => intro _; exact ⟨[], rfl, rfl, fun k e hk => by simp at hk⟩
  | cons e0 rest ih =>
    intro h
    obtain ⟨hv0, hv1⟩ := h e0 (List.mem_cons_self e0 rest)
    obtain ⟨x0, hx0, _⟩ := vertexAtL_valid vs e0.v hv0 hv1
    obtain ⟨xs, hxs, hlen, hpt⟩ := ih (fun e he => h e (List.mem_cons_of_mem e0 he))
    refine ⟨(x0, e0.weight) :: xs, ?_, by simp [hlen], ?_⟩
    · simp [mapWeightedAt, hx0, hxs]
    · intro k e hk
      cases k with
      | zero =>
        simp only [List.get?, Option.some_inj] at hk
        subst hk
        exact ⟨x0, rfl, hx0⟩
      | succ k =>
        simp only [List.get?] at hk ⊢
        exact hpt k e hk

theorem addEdgeCore_valid {E : Type} (edges : List (List E)) (u v : Nat) (e er : E) :
    u < edges.length → v < edges.length →
      addEdgeCore edges (u : Int) (v : Int) e er =
        (listModify (listModify edges u (fun l => l ++ [e])) v (fun l => l ++ [er]),
          none) := by
  intro hu hv
  unfold addEdgeCore
  rw [pyIdx_coe _ _ hu]
  have h1 : (listModify edges u (fun l => l ++ [e])).length = edges.length :=
    listModify_length _ _ _
  simp only [h1]
  rw [pyIdx_coe _ _ hv]

theorem addEdgeCore_u_invalid {E : Type} (edges : List (List E)) (u v : Int) (e er : E) :
    pyIdx edges.length u = none →
      addEdgeCore edges u v e er = (edges, some .indexOutOfBounds) := by
  intro h
  unfold addEdgeCore
  rw [h]

theorem addEdgeCore_v_invalid {E : Type} (edges : List (List E)) (u v : Int)
    (ju : Nat) (e er : E) :
    pyIdx edges.length u = some ju → pyIdx edges.length v = none →
      addEdgeCore edges u v e er =
        (listModify edges ju (fun l => l ++ [e]), some .indexOutOfBounds) := by
  intro hu hv
  unfold addEdgeCore
  rw [hu]
  have h1 : (listModify edges ju (fun l => l ++ [e])).length = edges.length :=
    listModify_length _ _ _
  simp only [h1]
  rw [hv]

theorem pyIdx_lt (n : Nat) (i : Int) (j : Nat) : pyIdx n i = some j → j < n := by
  rw [pyIdx_eq_some_iff]
  omega

theorem addEdgeCore_some_some {E : Type} (edges : List (List E)) (u v : Int)
    (ju jv : Nat) (e er : E) :
    pyIdx edges.length u = some ju → pyIdx edges.length v = some jv →
      addEdgeCore edges u v e er =
        (listModify (listModify edges ju (fun l => l ++ [e])) jv (fun l => l ++ [er]),
          none) := by
  intro hu hv
  unfold addEdgeCore
  rw [hu]
  have h1 : (listModify edges ju (fun l => l ++ [e])).length = edges.length :=
    listModify_length _ _ _
  simp only [h1]
  rw [hv]

theorem vertexAtL_coe_ok_iff {V : Type} (vs : List V) (u : Nat) (x : V) :
    vertexAtL vs (u : Int) = .ok x ↔ vs.get? u = some x := by
  constructor
  · intro h
    by_cases hu : u < vs.length
    · unfold vertexAtL pyGet at h
      rw [pyIdx_coe _ _ hu, Option.some_bind] at h
      cases hg : vs.get? u with
      | none => rw [hg] at h; cases h
      | some y =>
        rw [hg] at h
        injection h with h2
        rw [h2]
    · exfalso
      have hn : pyIdx vs.length (u : Int) = none := by
        rw [pyIdx_eq_none_iff]; omega
      unfold vertexAtL pyGet at h
      rw [hn] at h
      cases h
  · exact vertexAtL_of_get? vs u x

theorem neighborsForIndex_eq {V : Type} (g : Graph V) (u : Nat) (l : List Edge) :
    g.edges.get? u = some l →
      g.neighbors_for_index (u : Int) = mapVertexAt g.vertices l := by
  intro hget
  have hu : u < g.edges.length := (List.get?_eq_some.mp hget).1
  unfold Graph.neighbors_for_index pyGet
  rw [pyIdx_coe _ _ hu, Option.some_bind, hget]

theorem edgesForIndex_eq {V : Type} (g : Graph V) (u : Nat) (l : List Edge) :
    g.edges.get? u = some l → g.edges_for_index (u : Int) = .ok l := by
  intro hget
  have hu : u < g.edges.length := (List.get?_eq_some.mp hget).1
  unfold Graph.edges_for_index pyGet
  rw [pyIdx_coe _ _ hu, Option.some_bind, hget]

theorem wNeighborsForIndex_eq {V W : Type} (g : WeightedGraph V W) (u : Nat)
    (l : List (WeightedEdge W)) :
    g.edges.get? u = some l →
      g.neighbors_for_index_with_weights (u : Int) = mapWeightedAt g.vertices l := by
  intro hget
  have hu : u < g.edges.length := (List.get?_eq_some.mp hget).1
  unfold WeightedGraph.neighbors_for_index_with_weights pyGet
  rw [pyIdx_coe _ _ hu, Option.some_bind, hget]

theorem addEdgeByIndices_valid {V : Type} (g : Graph V) (u v : Nat) :
    u < g.edges.length → v < g.edges.length →
      g.add_edge_by_indices (u : Int) (v : Int) = (afterAddEdge g u v, none) := by
  intro hu hv
  show (Graph.mk g.vertices
      (addEdgeCore g.edges (u : Int) (v : Int)
        (Edge.mk (u : Int) (v : Int)) (Edge.mk (v : Int) (u : Int))).1,
    (addEdgeCore g.edges (u : Int) (v : Int)
      (Edge.mk (u : Int) (v : Int)) (Edge.mk (v : Int) (u : Int))).2) = _
  rw [addEdgeCore_valid g.edges u v _ _ hu hv]
  rfl

theorem wAddEdgeByIndices_valid {V W : Type} (g : WeightedGraph V W) (u v : Nat) (w : W) :
    u < g.edges.length → v < g.edges.length →
      g.add_edge_by_indices (u : Int) (v : Int) w = (wAfterAddEdge g u v w, none) := by
  intro hu hv
  show (WeightedGraph.mk g.vertices
      (addEdgeCore g.edges (u : Int) (v : Int)
        (WeightedEdge.mk (u : Int) (v : Int) w)
        (WeightedEdge.mk (v : Int) (u : Int) w)).1,
    (addEdgeCore g.edges (u : Int) (v : Int)
      (WeightedEdge.mk (u : Int) (v : Int) w)
      (WeightedEdge.mk (v : Int) (u : Int) w)).2) = _
  rw [addEdgeCore_valid g.edges u v _ _ hu hv]
  rfl

theorem addEdge_success_count {V : Type} (g : Graph V) (e : Edge) :
    (g.add_edge e).2 = none → (g.add_edge e).1.edge_count = g.edge_count + 2 := by
  intro h
  cases hpu : pyIdx g.edges.length e.u with
  | none =>
    exfalso
    have hh : (g.add_edge e).2 = some PyErr.indexOutOfBounds := by
      show (addEdgeCore g.edges e.u e.v e e.reversed).2 = _
      rw [addEdgeCore_u_invalid _ _ _ _ _ hpu]
    rw [h] at hh
    cases hh
  | some ju =>
    cases hpv : pyIdx g.edges.length e.v with
    | none =>
      exfalso
      have hh : (g.add_edge e).2 = some PyErr.indexOutOfBounds := by
        show (addEdgeCore g.edges e.u e.v e e.reversed).2 = _
        rw [addEdgeCore_v_invalid _ _ _ ju _ _ hpu hpv]
      rw [h] at hh
      cases hh
    | some jv =>
      have hju : ju < g.edges.length := pyIdx_lt _ _ _ hpu
      have hjv : jv < g.edges.length := pyIdx_lt _ _ _ hpv
      have hh : (g.add_edge e).1.edges =
          listModify (listModify g.edges ju (fun l => l ++ [e])) jv
            (fun l => l ++ [e.reversed]) := by
        show (addEdgeCore g.edges e.u e.v e e.reversed).1 = _
        rw [addEdgeCore_some_some _ _ _ _ _ _ _ hpu hpv]
      show ((g.add_edge e).1.edges.map List.length).sum = (g.edges.map List.length).sum + 2
      rw [hh, listModify_sum_append _ jv _ (by rw [listModify_length]; exact hjv),
        listModify_sum_append _ ju _ hju]

theorem vertexAtL_neg_valid {V : Type} (vs : List V) (i : Int) :
    -(vs.length : Int) ≤ i → i < 0 →
      ∃ x, vertexAtL vs i = .ok x ∧ vs.get? (i + vs.length).toNat = some x := by
  intro hn h0
  have hj : pyIdx vs.length i = some (i + vs.length).toNat := by
    rw [pyIdx_eq_some_iff]
    omega
  have hlt : (i + vs.length).toNat < vs.length := by omega
  have hget : vs.get? (i + vs.length).toNat = some (vs.get ⟨_, hlt⟩) :=
    List.get?_eq_some.mpr ⟨hlt, rfl⟩
  refine ⟨_, ?_, hget⟩
  unfold vertexAtL pyGet
  rw [hj, Option.some_bind, hget]

theorem vertexAtL_err_iff {V : Type} (vs : List V) (i : Int) :
    vertexAtL vs i = .error PyErr.indexOutOfBounds ↔
      (i < -(vs.length : Int) ∨ (vs.length : Int) ≤ i) := by
  constructor
  · intro h
    by_contra hc
    push_neg at hc
    rcases le_or_lt 0 i with h0 | h0
    · obtain ⟨x, hx, _⟩ := vertexAtL_valid vs i h0 hc.2
      rw [hx] at h
      cases h
    · obtain ⟨x, hx, _⟩ := vertexAtL_neg_valid vs i hc.1 h0
      rw [hx] at h
      cases h
  · intro h
    have hn : pyIdx vs.length i = none := by rw [pyIdx_eq_none_iff]; exact h
    unfold vertexAtL pyGet
    rw [hn]
    rfl

theorem exists_get?_of_lt {α : Type} (xs : List α) (i : Nat) :
    i < xs.length → ∃ l, xs.get? i = some l := by
  intro h
  cases hg : xs.get? i with
  | none => rw [List.get?_eq_none] at hg; omega
  | some l => exact ⟨l, rfl⟩

theorem neighbors_contains {V : Type} (g1 : Graph V) (u v : Nat) (l : List Edge)
    (hget : g1.edges.get? u = some l)
    (hval : ∀ e ∈ l, 0 ≤ e.v ∧ e.v < (g1.vertices.length : Int))
    (hmem : ∃ (k : Nat) (e : Edge), l.get? k = some e ∧ e.v = (v : Int)) :
    ∃ xv nu, vertexAtL g1.vertices (v : Int) = .ok xv ∧
      g1.neighbors_for_index (u : Int) = .ok nu ∧ xv ∈ nu := by
  obtain ⟨k, e, hk, hev⟩ := hmem
  obtain ⟨ns, hns, _, hpt⟩ := mapVertexAt_total g1.vertices l hval
  obtain ⟨x, hxk, hxok⟩ := hpt k e hk
  rw [hev] at hxok
  exact ⟨x, ns, hxok, by rw [neighborsForIndex_eq g1 u l hget]; exact hns,
    List.get?_mem hxk⟩

theorem wNeighbors_contains {V W : Type} (g1 : WeightedGraph V W) (u v : Nat)
    (l : List (WeightedEdge W)) (w : W)
    (hget : g1.edges.get? u = some l)
    (hval : ∀ e ∈ l, 0 ≤ e.v ∧ e.v < (g1.vertices.length : Int))
    (hmem : ∃ (k : Nat) (e : WeightedEdge W),
      l.get? k = some e ∧ e.v = (v : Int) ∧ e.weight = w) :
    ∃ xv nu, vertexAtL g1.vertices (v : Int) = .ok xv ∧
      g1.neighbors_for_index_with_weights (u : Int) = .ok nu ∧ (xv, w) ∈ nu := by
  obtain ⟨k, e, hk, hev, hw⟩ := hmem
  obtain ⟨ns, hns, _, hpt⟩ := mapWeightedAt_total g1.vertices l hval
  obtain ⟨x, hxk, hxok⟩ := hpt k e hk
  rw [hev] at hxok
  rw [hw] at hxk
  exact ⟨x, ns, hxok, by rw [wNeighborsForIndex_eq g1 u l hget]; exact hns,
    List.get?_mem hxk⟩

/-! ### Claim theorems -/

/-- C2 (counterexample): with two vertices, `add_edge(Edge(0, 5))` does
raise IndexOutOfBounds but leaves the graph mutated (adjacency list 0
already received the edge), and `add_edge(Edge(-1, 0))` with `-1` outside
`[0, vertexCount)` raises nothing at all. -/
theorem C2_out_of_range_counterexample :
    ((gS2.add_edge ⟨0, 5⟩).2 = some PyErr.indexOutOfBounds ∧
      (gS2.add_edge ⟨0, 5⟩).1 ≠ gS2) ∧
    (gS2.add_edge ⟨-1, 0⟩).2 = none := by decide

/-- C2 (amended): `add_edge` raises IndexOutOfBounds exactly when `u` or
`v` lies outside `[-vertexCount, vertexCount)` (Python indices wrap);
when `u` itself is out of that range the graph is unchanged, but when `u`
is in range and only `v` is out of range, the adjacency list selected by
`u` has already received the forward entry when the failure is raised. -/
theorem C2_out_of_range_amended {V : Type} (g : Graph V) (e : Edge)
    (hlen : g.edges.length = g.vertices.length) :
    ((g.add_edge e).2 = some PyErr.indexOutOfBounds ↔
      (e.u < -(g.vertex_count : Int) ∨ (g.vertex_count : Int) ≤ e.u ∨
       e.v < -(g.vertex_count : Int) ∨ (g.vertex_count : Int) ≤ e.v)) ∧
    ((e.u < -(g.vertex_count : Int) ∨ (g.vertex_count : Int) ≤ e.u) →
      (g.add_edge e).1 = g) ∧
    (∀ ju : Nat, pyIdx g.edges.length e.u = some ju →
      (e.v < -(g.vertex_count : Int) ∨ (g.vertex_count : Int) ≤ e.v) →
      (g.add_edge e).1.edges = listModify g.edges ju (fun l => l ++ [e])) := by
  have hvc : g.vertex_count = g.edges.length := hlen.symm
  refine ⟨?_, ?_, ?_⟩
  · cases hpu : pyIdx g.edges.length e.u with
    | none =>
      have h2 : (g.add_edge e).2 = some PyErr.indexOutOfBounds := by
        show (addEdgeCore g.edges e.u e.v e e.reversed).2 = _
        rw [addEdgeCore_u_invalid _ _ _ _ _ hpu]
      rw [h2]
      refine iff_of_true rfl ?_
      have hu := (pyIdx_eq_none_iff _ _).mp hpu
      omega
    | some ju =>
      cases hpv : pyIdx g.edges.length e.v with
      | none =>
        have h2 : (g.add_edge e).2 = some PyErr.indexOutOfBounds := by
          show (addEdgeCore g.edges e.u e.v e e.reversed).2 = _
          rw [addEdgeCore_v_invalid _ _ _ ju _ _ hpu hpv]
        rw [h2]
        refine iff_of_true rfl ?_
        have hv := (pyIdx_eq_none_iff _ _).mp hpv
        omega
      | some jv =>
        have h2 : (g.add_edge e).2 = none := by
          show (addEdgeCore g.edges e.u e.v e e.reversed).2 = _
          rw [addEdgeCore_some_some _ _ _ _ _ _ _ hpu hpv]
        rw [h2]
        refine iff_of_false (by simp) ?_
        have hu2 := (pyIdx_eq_some_iff _ _ _).mp hpu
        have hv2 := (pyIdx_eq_some_iff _ _ _).mp hpv
        omega
  · intro h
    have hpu : pyIdx g.edges.length e.u = none := by
      rw [pyIdx_eq_none_iff]
      omega
    show (Graph.mk g.vertices (addEdgeCore g.edges e.u e.v e e.reversed).1) = g
    rw [addEdgeCore_u_invalid _ _ _ _ _ hpu]
  · intro ju hpu hv
    have hpv : pyIdx g.edges.length e.v = none := by
      rw [pyIdx_eq_none_iff]
      omega
    show (addEdgeCore g.edges e.u e.v e e.reversed).1 = _
    rw [addEdgeCore_v_invalid _ _ _ ju _ _ hpu hpv]

/-- C2 (witness): the amended statement instantiated at `gS2` and
`Edge(0, 5)`. -/
theorem C2_out_of_range_amended_witness :
    (gS2.add_edge ⟨0, 5⟩).2 = some PyErr.indexOutOfBounds ∧
      (gS2.add_edge ⟨0, 5⟩).1.edges = listModify gS2.edges 0 (fun l => l ++ [⟨0, 5⟩]) := by
  obtain ⟨hiff, _, hmut⟩ := C2_out_of_range_amended gS2 ⟨0, 5⟩ (by decide)
  exact ⟨hiff.mpr (by decide), hmut 0 (by decide) (by decide)⟩

/-- C3 (counterexample): `vertex_at(-1)` on a two-vertex graph returns
the last vertex instead of failing with IndexOutOfBounds, refuting
"fails for every negative index". -/
theorem C3_vertexAt_counterexample :
    gS2.vertex_at (-1) = Except.ok 20 ∧
      gS2.vertex_at (-1) ≠ Except.error PyErr.indexOutOfBounds :=
  ⟨rfl, fun h => by
    rw [show gS2.vertex_at (-1) = Except.ok 20 from rfl] at h
    cases h⟩

/-- C3 (amended): `vertex_at(index)` returns the vertex at position
`index` for `0 ≤ index < vertexCount`, returns the vertex at position
`index + vertexCount` for `-vertexCount ≤ index < 0` (Python negative
wrapping), and fails with IndexOutOfBounds exactly when `index` is
outside `[-vertexCount, vertexCount)`. -/
theorem C3_vertexAt_amended {V : Type} (g : Graph V) (i : Int) :
    (0 ≤ i → i < (g.vertex_count : Int) →
      ∃ x, g.vertex_at i = .ok x ∧ g.vertices.get? i.toNat = some x) ∧
    (-(g.vertex_count : Int) ≤ i → i < 0 →
      ∃ x, g.vertex_at i = .ok x ∧
        g.vertices.get? (i + g.vertex_count).toNat = some x) ∧
    (g.vertex_at i = .error PyErr.indexOutOfBounds ↔
      (i < -(g.vertex_count : Int) ∨ (g.vertex_count : Int) ≤ i)) := by
  refine ⟨?_, ?_, ?_⟩
  · intro h0 h1
    exact vertexAtL_valid g.vertices i h0 h1
  · intro hn h0
    exact vertexAtL_neg_valid g.vertices i hn h0
  · exact vertexAtL_err_iff g.vertices i

/-- C3 (witness): the amended statement at `gS2` and index `-1`. -/
theorem C3_vertexAt_amended_witness :
    ∃ x, gS2.vertex_at (-1) = .ok x ∧
      gS2.vertices.get? ((-1 : Int) + gS2.vertex_count).toNat = some x :=
  (C3_vertexAt_amended gS2 (-1)).2.1 (by decide) (by decide)

/-- C5: `edge_count` is the sum of the adjacency-list lengths (each
undirected edge counted twice), and a successful `add_edge` increases it
by exactly 2. -/
theorem C5_edgeCount_double {V : Type} (g : Graph V) (e : Edge) :
    g.edge_count = (g.edges.map List.length).sum ∧
    ((g.add_edge e).2 = none →
      (g.add_edge e).1.edge_count = g.edge_count + 2) :=
  ⟨rfl, addEdge_success_count g e⟩

/-- C5 (witness): adding edge 0–1 to the empty three-vertex graph
succeeds and raises `edge_count` from 0 to 2. -/
theorem C5_edgeCount_double_witness :
    (gS3.add_edge ⟨0, 1⟩).2 = none ∧
      (gS3.add_edge ⟨0, 1⟩).1.edge_count = gS3.edge_count + 2 :=
  ⟨by decide, (C5_edgeCount_double gS3 ⟨0, 1⟩).2 (by decide)⟩

/-- C6: with pairwise distinct vertex values,
`index_of (vertex_at i) = i`; in general `index_of` returns the lowest
matching index. -/
theorem C6_indexOf_roundtrip {V : Type} [DecidableEq V] (g : Graph V) :
    (g.vertices.Nodup →
      ∀ (i : Nat) (x : V), g.vertex_at (i : Int) = .ok x → g.index_of x = .ok i) ∧
    (∀ (x : V) (j : Nat), g.index_of x = .ok j →
      g.vertices.get? j = some x ∧ ∀ k, k < j → g.vertices.get? k ≠ some x) := by
  constructor
  · intro hnd i x hx
    have hget : g.vertices.get? i = some x := (vertexAtL_coe_ok_iff _ _ _).mp hx
    show indexOfL g.vertices x = .ok i
    unfold indexOfL
    rw [pyIndex_nodup _ i x hnd hget]
  · intro x j h
    unfold Graph.index_of indexOfL at h
    cases hpi : pyIndex g.vertices x with
    | none => rw [hpi] at h; cases h
    | some j0 =>
      rw [hpi] at h
      injection h with h2
      subst h2
      exact pyIndex_first _ _ _ hpi

/-- C6 (witness): in `gS3` (distinct values 10, 20, 30), the value at
index 1 resolves back to index 1. -/
theorem C6_indexOf_roundtrip_witness : gS3.index_of 20 = Except.ok 1 :=
  (C6_indexOf_roundtrip gS3).1 (by decide) 1 20 (by rfl)

/-- C7: `index_of` fails with NotFound exactly when the value is absent,
and `add_edge_by_vertices` with an absent value fails with NotFound
leaving the graph unchanged. -/
theorem C7_notFound_propagation {V : Type} [DecidableEq V] (g : Graph V) :
    (∀ x : V, g.index_of x = .error PyErr.notFound ↔ x ∉ g.vertices) ∧
    (∀ a b : V, (a ∉ g.vertices ∨ b ∉ g.vertices) →
      g.add_edge_by_vertices a b = (g, some PyErr.notFound)) := by
  constructor
  · intro x
    constructor
    · intro h
      cases hpi : pyIndex g.vertices x with
      | none => exact (pyIndex_eq_none_iff _ _).mp hpi
      | some j =>
        exfalso
        unfold Graph.index_of indexOfL at h
        rw [hpi] at h
        cases h
    · intro hx
      have hn : pyIndex g.vertices x = none := (pyIndex_eq_none_iff _ _).mpr hx
      show indexOfL g.vertices x = _
      unfold indexOfL
      rw [hn]
  · intro a b hab
    unfold Graph.add_edge_by_vertices
    rcases hab with ha | hb
    · rw [(pyIndex_eq_none_iff _ _).mpr ha]
    · cases hpa : pyIndex g.vertices a with
      | none => rfl
      | some u => rw [(pyIndex_eq_none_iff _ _).mpr hb]

/-- C7 (witness): value 99 is absent from `gS3`: `index_of` and
`add_edge_by_vertices` both fail with NotFound. -/
theorem C7_notFound_propagation_witness :
    gS3.index_of 99 = Except.error PyErr.notFound ∧
      gS3.add_edge_by_vertices 10 99 = (gS3, some PyErr.notFound) :=
  ⟨((C7_notFound_propagation gS3).1 99).mpr (by decide),
    (C7_notFound_propagation gS3).2 10 99 (Or.inr (by decide))⟩

/-- C8: `add_vertex` appends the value and an empty adjacency list,
increases `vertex_count` by one, returns the new index (new length minus
one), and keeps the two sequences equally long. -/
theorem C8_addVertex_append {V : Type} (g : Graph V) (x : V) :
    (g.add_vertex x).1.vertices = g.vertices ++ [x] ∧
    (g.add_vertex x).1.edges = g.edges ++ [[]] ∧
    (g.add_vertex x).1.vertex_count = g.vertex_count + 1 ∧
    (g.add_vertex x).2 = g.vertex_count ∧
    (g.add_vertex x).2 = (g.add_vertex x).1.vertex_count - 1 ∧
    (g.edges.length = g.vertices.length →
      (g.add_vertex x).1.edges.length = (g.add_vertex x).1.vertices.length) := by
  refine ⟨rfl, rfl, ?_, ?_, rfl, ?_⟩
  · show (g.vertices ++ [x]).length = g.vertices.length + 1
    simp
  · show (g.vertices ++ [x]).length - 1 = g.vertices.length
    simp
  · intro h
    show (g.edges ++ [[]]).length = (g.vertices ++ [x]).length
    simp [h]

/-- C8 (witness): adding vertex 40 to `gS3` keeps the two sequences
equally long. -/
theorem C8_addVertex_append_witness :
    (gS3.add_vertex 40).1.edges.length = (gS3.add_vertex 40).1.vertices.length :=
  (C8_addVertex_append gS3 40).2.2.2.2.2 (by decide)

/-- C1: with valid indices `u`, `v` on a well-formed graph,
`add_edge_by_indices(u, v)` succeeds and adds exactly two directional
entries — `Edge(u, v)` appended at `adjacency[u]` and `Edge(v, u)`
appended at `adjacency[v]` (both at `adjacency[u]` for a self-loop) —
every other adjacency list and all previously stored edges being
unchanged; consequently `vertex_at(v)` is a member of
`neighbors_for_index(u)` and `vertex_at(u)` of `neighbors_for_index(v)`. -/
theorem C1_addEdge_symmetric_insertion {V : Type} (g : Graph V) (u v : Nat)
    (hwf : g.WF) (hu : u < g.vertex_count) (hv : v < g.vertex_count) :
    ∃ g1 : Graph V,
      g.add_edge_by_indices (u : Int) (v : Int) = (g1, none) ∧
      g1.vertices = g.vertices ∧
      g1.edges.length = g.edges.length ∧
      (∀ i : Nat, i ≠ u → i ≠ v → g1.edges.get? i = g.edges.get? i) ∧
      (u ≠ v →
        g1.edges.get? u =
          (g.edges.get? u).map (fun l => l ++ [Edge.mk (u : Int) (v : Int)]) ∧
        g1.edges.get? v =
          (g.edges.get? v).map (fun l => l ++ [Edge.mk (v : Int) (u : Int)])) ∧
      (u = v →
        g1.edges.get? u =
          (g.edges.get? u).map
            (fun l => l ++ [Edge.mk (u : Int) (v : Int), Edge.mk (v : Int) (u : Int)])) ∧
      (∃ xv nu, g.vertex_at (v : Int) = .ok xv ∧
        g1.neighbors_for_index (u : Int) = .ok nu ∧ xv ∈ nu) ∧
      (∃ xu nv, g.vertex_at (u : Int) = .ok xu ∧
        g1.neighbors_for_index (v : Int) = .ok nv ∧ xu ∈ nv) := by
  have hu2 : u < g.vertices.length := hu
  have hv2 : v < g.vertices.length := hv
  have hu' : u < g.edges.length := by rw [hwf.1]; exact hu2
  have hv' : v < g.edges.length := by rw [hwf.1]; exact hv2
  obtain ⟨lu, hlu⟩ := exists_get?_of_lt g.edges u hu'
  obtain ⟨lv, hlv⟩ := exists_get?_of_lt g.edges v hv'
  refine ⟨afterAddEdge g u v,
    addEdgeByIndices_valid g u v hu' hv', rfl, ?_, ?_, ?_, ?_, ?_, ?_⟩
  · dsimp only [afterAddEdge]
    rw [listModify_length, listModify_length]
  · intro i hiu hiv
    dsimp only [afterAddEdge]
    rw [listModify_get?_ne _ i v _ hiv, listModify_get?_ne _ i u _ hiu]
  · intro huv
    constructor
    · dsimp only [afterAddEdge]
      rw [listModify_get?_ne _ u v _ huv, listModify_get?_self _ u _ hu']
    · dsimp only [afterAddEdge]
      rw [listModify_get?_self _ v _ (by rw [listModify_length]; exact hv'),
        listModify_get?_ne _ v u _ (fun h => huv h.symm)]
  · intro huv
    subst huv
    dsimp only [afterAddEdge]
    rw [listModify_get?_self _ u _ (by rw [listModify_length]; exact hu'),
      listModify_get?_self _ u _ hu', Option.map_map]
    cases hg : g.edges.get? u with
    | none => rfl
    | some l => simp [Function.comp, List.append_assoc]
  · rcases eq_or_ne u v with huv | huv
    · subst huv
      refine neighbors_contains (afterAddEdge g u u) u u
        (lu ++ [Edge.mk (u : Int) (u : Int), Edge.mk (u : Int) (u : Int)]) ?_ ?_ ?_
      · dsimp only [afterAddEdge]
        rw [listModify_get?_self _ u _ (by rw [listModify_length]; exact hu'),
          listModify_get?_self _ u _ hu', Option.map_map, hlu]
        simp [Function.comp, List.append_assoc]
      · dsimp only [afterAddEdge]
        intro e he
        rcases List.mem_append.mp he with h | h
        · exact (hwf.2 lu (List.get?_mem hlu) e h).2
        · simp only [List.mem_cons, List.not_mem_nil, or_false] at h
          rcases h with rfl | rfl <;>
            exact ⟨by show (0 : Int) ≤ (u : Int); omega,
              by show (u : Int) < (g.vertices.length : Int); omega⟩
      · refine ⟨lu.length, Edge.mk (u : Int) (u : Int), ?_, rfl⟩
        rw [List.get?_append_right (Nat.le_refl _)]
        simp
    · refine neighbors_contains (afterAddEdge g u v) u v
        (lu ++ [Edge.mk (u : Int) (v : Int)]) ?_ ?_ ?_
      · dsimp only [afterAddEdge]
        rw [listModify_get?_ne _ u v _ huv, listModify_get?_self _ u _ hu', hlu]
        rfl
      · dsimp only [afterAddEdge]
        intro e he
        rcases List.mem_append.mp he with h | h
        · exact (hwf.2 lu (List.get?_mem hlu) e h).2
        · obtain rfl := List.mem_singleton.mp h
          exact ⟨by show (0 : Int) ≤ (v : Int); omega,
            by show (v : Int) < (g.vertices.length : Int); omega⟩
      · exact ⟨lu.length, Edge.mk (u : Int) (v : Int), List.get?_concat_length lu _, rfl⟩
  · rcases eq_or_ne u v with huv | huv
    · subst huv
      refine neighbors_contains (afterAddEdge g u u) u u
        (lu ++ [Edge.mk (u : Int) (u : Int), Edge.mk (u : Int) (u : Int)]) ?_ ?_ ?_
      · dsimp only [afterAddEdge]
        rw [listModify_get?_self _ u _ (by rw [listModify_length]; exact hu'),
          listModify_get?_self _ u _ hu', Option.map_map, hlu]
        simp [Function.comp, List.append_assoc]
      · dsimp only [afterAddEdge]
        intro e he
        rcases List.mem_append.mp he with h | h
        · exact (hwf.2 lu (List.get?_mem hlu) e h).2
        · simp only [List.mem_cons, List.not_mem_nil, or_false] at h
          rcases h with rfl | rfl <;>
            exact ⟨by show (0 : Int) ≤ (u : Int); omega,
              by show (u : Int) < (g.vertices.length : Int); omega⟩
      · refine ⟨lu.length, Edge.mk (u : Int) (u : Int), ?_, rfl⟩
        rw [List.get?_append_right (Nat.le_refl _)]
        simp
    · refine neighbors_contains (afterAddEdge g u v) v u
        (lv ++ [Edge.mk (v : Int) (u : Int)]) ?_ ?_ ?_
      · dsimp only [afterAddEdge]
        rw [listModify_get?_self _ v _ (by rw [listModify_length]; exact hv'),
          listModify_get?_ne _ v u _ (fun h => huv h.symm), hlv]
        rfl
      · dsimp only [afterAddEdge]
        intro e he
        rcases List.mem_append.mp he with h | h
        · exact (hwf.2 lv (List.get?_mem hlv) e h).2
        · obtain rfl := List.mem_singleton.mp h
          exact ⟨by show (0 : Int) ≤ (u : Int); omega,
            by show (u : Int) < (g.vertices.length : Int); omega⟩
      · exact ⟨lv.length, Edge.mk (v : Int) (u : Int), List.get?_concat_length lv _, rfl⟩

/-- C1 (witness): inserting edge 0–1 into `gS3` succeeds and makes the
vertex at index 1 a neighbour of index 0. -/
theorem C1_addEdge_symmetric_insertion_witness :
    gS3.WF ∧ ∃ g1 : Graph Nat,
      gS3.add_edge_by_indices ((0 : Nat) : Int) ((1 : Nat) : Int) = (g1, none) ∧
      ∃ xv nu, gS3.vertex_at ((1 : Nat) : Int) = .ok xv ∧
        g1.neighbors_for_index ((0 : Nat) : Int) = .ok nu ∧ xv ∈ nu := by
  refine ⟨by decide, ?_⟩
  obtain ⟨g1, h1, _, _, _, _, _, hmem, _⟩ :=
    C1_addEdge_symmetric_insertion gS3 0 1 (by decide) (by decide) (by decide)
  exact ⟨g1, h1, hmem⟩

/-- C9: for a valid index on a well-formed graph,
`neighbors_for_index(i)` returns exactly the adjacency list of `i`
mapped through `vertex_at` on each edge's `v` endpoint, preserving
insertion order (the k-th neighbour corresponds to the k-th edge). -/
theorem C9_neighbors_order {V : Type} (g : Graph V) (i : Nat) (hwf : g.WF)
    (hi : i < g.vertex_count) :
    ∃ (l : List Edge) (ns : List V),
      g.edges.get? i = some l ∧
      g.edges_for_index (i : Int) = .ok l ∧
      g.neighbors_for_index (i : Int) = .ok ns ∧
      ns.length = l.length ∧
      ∀ (k : Nat) (e : Edge), l.get? k = some e →
        ∃ x, ns.get? k = some x ∧ g.vertex_at e.v = .ok x := by
  have hi2 : i < g.vertices.length := hi
  have hi' : i < g.edges.length := by rw [hwf.1]; exact hi2
  obtain ⟨l, hl⟩ := exists_get?_of_lt g.edges i hi'
  have hval : ∀ e ∈ l, 0 ≤ e.v ∧ e.v < (g.vertices.length : Int) :=
    fun e he => (hwf.2 l (List.get?_mem hl) e he).2
  obtain ⟨ns, hns, hlen, hpt⟩ := mapVertexAt_total g.vertices l hval
  refine ⟨l, ns, hl, edgesForIndex_eq g i l hl, ?_, hlen, hpt⟩
  rw [neighborsForIndex_eq g i l hl]
  exact hns

/-- C9 (witness): on `gE`, index 0 has one stored edge and one neighbour. -/
theorem C9_neighbors_order_witness :
    ∃ (l : List Edge) (ns : List Nat),
      gE.edges.get? 0 = some l ∧
      gE.neighbors_for_index ((0 : Nat) : Int) = .ok ns ∧
      ns.length = l.length := by
  obtain ⟨l, ns, h1, _, h3, h4, _⟩ := C9_neighbors_order gE 0 (by decide) (by decide)
  exact ⟨l, ns, h1, h3, h4⟩

/-- C10: a self-loop `add_edge_by_indices(u, u)` on a valid index
appends two entries (the edge and its reversal) to `adjacency[u]`,
raises `edge_count` by 2, and appends two occurrences of `vertex_at(u)`
to `neighbors_for_index(u)`. -/
theorem C10_self_loop {V : Type} (g : Graph V) (u : Nat) (hwf : g.WF)
    (hu : u < g.vertex_count) :
    ∃ (g1 : Graph V) (lu : List Edge) (x : V) (ns : List V),
      g.edges.get? u = some lu ∧
      g.add_edge_by_indices (u : Int) (u : Int) = (g1, none) ∧
      g1.edges.get? u =
        some (lu ++ [Edge.mk (u : Int) (u : Int), Edge.mk (u : Int) (u : Int)]) ∧
      g1.edge_count = g.edge_count + 2 ∧
      g.vertex_at (u : Int) = .ok x ∧
      g.neighbors_for_index (u : Int) = .ok ns ∧
      g1.neighbors_for_index (u : Int) = .ok (ns ++ [x, x]) := by
  have hu2 : u < g.vertices.length := hu
  have hu' : u < g.edges.length := by rw [hwf.1]; exact hu2
  obtain ⟨lu, hlu⟩ := exists_get?_of_lt g.edges u hu'
  have hval : ∀ e ∈ lu, 0 ≤ e.v ∧ e.v < (g.vertices.length : Int) :=
    fun e he => (hwf.2 lu (List.get?_mem hlu) e he).2
  obtain ⟨ns, hns, _, _⟩ := mapVertexAt_total g.vertices lu hval
  obtain ⟨x, hx, _⟩ := vertexAtL_valid g.vertices (u : Int) (by omega)
    (by show (u : Int) < (g.vertices.length : Int); omega)
  have happ1 := mapVertexAt_append_single g.vertices lu
    (Edge.mk (u : Int) (u : Int)) ns x hns hx
  have happ2 := mapVertexAt_append_single g.vertices
    (lu ++ [Edge.mk (u : Int) (u : Int)]) (Edge.mk (u : Int) (u : Int))
    (ns ++ [x]) x happ1 hx
  refine ⟨afterAddEdge g u u, lu, x, ns, hlu,
    addEdgeByIndices_valid g u u hu' hu', ?_, ?_, hx, ?_, ?_⟩
  · dsimp only [afterAddEdge]
    rw [listModify_get?_self _ u _ (by rw [listModify_length]; exact hu'),
      listModify_get?_self _ u _ hu', Option.map_map, hlu]
    simp [Function.comp, List.append_assoc]
  · have hsucc : (g.add_edge (Edge.mk (u : Int) (u : Int))).2 = none := by
      rw [show g.add_edge (Edge.mk (u : Int) (u : Int)) =
          g.add_edge_by_indices (u : Int) (u : Int) from rfl,
        addEdgeByIndices_valid g u u hu' hu']
    have hcnt := addEdge_success_count g (Edge.mk (u : Int) (u : Int)) hsucc
    rw [show g.add_edge (Edge.mk (u : Int) (u : Int)) =
        g.add_edge_by_indices (u : Int) (u : Int) from rfl,
      addEdgeByIndices_valid g u u hu' hu'] at hcnt
    exact hcnt
  · rw [neighborsForIndex_eq g u lu hlu]
    exact hns
  · have hadj : (afterAddEdge g u u).edges.get? u =
        some ((lu ++ [Edge.mk (u : Int) (u : Int)]) ++ [Edge.mk (u : Int) (u : Int)]) := by
      dsimp only [afterAddEdge]
      rw [listModify_get?_self _ u _ (by rw [listModify_length]; exact hu'),
        listModify_get?_self _ u _ hu', Option.map_map, hlu]
      rfl
    rw [neighborsForIndex_eq _ u _ hadj,
      show ns ++ [x, x] = (ns ++ [x]) ++ [x] from by simp]
    exact happ2

/-- C10 (witness): a self-loop on index 1 of `gE`. -/
theorem C10_self_loop_witness :
    ∃ (g1 : Graph Nat) (lu : List Edge) (x : Nat) (ns : List Nat),
      gE.edges.get? 1 = some lu ∧
      gE.add_edge_by_indices ((1 : Nat) : Int) ((1 : Nat) : Int) = (g1, none) ∧
      g1.edge_count = gE.edge_count + 2 ∧
      g1.neighbors_for_index ((1 : Nat) : Int) = .ok (ns ++ [x, x]) := by
  obtain ⟨g1, lu, x, ns, h1, h2, _, h4, _, _, h7⟩ :=
    C10_self_loop gE 1 (by decide) (by decide)
  exact ⟨g1, lu, x, ns, h1, h2, h4, h7⟩

/-- C4: on a well-formed weighted graph with valid indices,
`add_edge_by_indices(u, v, w)` succeeds and
`neighbors_for_index_with_weights(u)` contains `(vertex_at(v), w)` while
`neighbors_for_index_with_weights(v)` contains `(vertex_at(u), w)`, the
same weight `w` on both directional entries. -/
theorem C4_weighted_mirror {V W : Type} (g : WeightedGraph V W) (u v : Nat) (w : W)
    (hwf : g.WF) (hu : u < g.vertex_count) (hv : v < g.vertex_count) :
    ∃ g1 : WeightedGraph V W,
      g.add_edge_by_indices (u : Int) (v : Int) w = (g1, none) ∧
      (∃ xv nu, g.vertex_at (v : Int) = .ok xv ∧
        g1.neighbors_for_index_with_weights (u : Int) = .ok nu ∧ (xv, w) ∈ nu) ∧
      (∃ xu nv, g.vertex_at (u : Int) = .ok xu ∧
        g1.neighbors_for_index_with_weights (v : Int) = .ok nv ∧ (xu, w) ∈ nv) := by
  have hu2 : u < g.vertices.length := hu
  have hv2 : v < g.vertices.length := hv
  have hu' : u < g.edges.length := by rw [hwf.1]; exact hu2
  have hv' : v < g.edges.length := by rw [hwf.1]; exact hv2
  obtain ⟨lu, hlu⟩ := exists_get?_of_lt g.edges u hu'
  obtain ⟨lv, hlv⟩ := exists_get?_of_lt g.edges v hv'
  refine ⟨wAfterAddEdge g u v w, wAddEdgeByIndices_valid g u v w hu' hv', ?_, ?_⟩
  · rcases eq_or_ne u v with huv | huv
    · subst huv
      refine wNeighbors_contains (wAfterAddEdge g u u w) u u
        (lu ++ [WeightedEdge.mk (u : Int) (u : Int) w,
          WeightedEdge.mk (u : Int) (u : Int) w]) w ?_ ?_ ?_
      · dsimp only [wAfterAddEdge]
        rw [listModify_get?_self _ u _ (by rw [listModify_length]; exact hu'),
          listModify_get?_self _ u _ hu', Option.map_map, hlu]
        simp [Function.comp, List.append_assoc]
      · dsimp only [wAfterAddEdge]
        intro e he
        rcases List.mem_append.mp he with h | h
        · exact (hwf.2 lu (List.get?_mem hlu) e h).2
        · simp only [List.mem_cons, List.not_mem_nil, or_false] at h
          rcases h with rfl | rfl <;>
            exact ⟨by show (0 : Int) ≤ (u : Int); omega,
              by show (u : Int) < (g.vertices.length : Int); omega⟩
      · refine ⟨lu.length, WeightedEdge.mk (u : Int) (u : Int) w, ?_, rfl, rfl⟩
        rw [List.get?_append_right (Nat.le_refl _)]
        simp
    · refine wNeighbors_contains (wAfterAddEdge g u v w) u v
        (lu ++ [WeightedEdge.mk (u : Int) (v : Int) w]) w ?_ ?_ ?_
      · dsimp only [wAfterAddEdge]
        rw [listModify_get?_ne _ u v _ huv, listModify_get?_self _ u _ hu', hlu]
        rfl
      · dsimp only [wAfterAddEdge]
        intro e he
        rcases List.mem_append.mp he with h | h
        · exact (hwf.2 lu (List.get?_mem hlu) e h).2
        · obtain rfl := List.mem_singleton.mp h
          exact ⟨by show (0 : Int) ≤ (v : Int); omega,
            by show (v : Int) < (g.vertices.length : Int); omega⟩
      · exact ⟨lu.length, WeightedEdge.mk (u : Int) (v : Int) w,
          List.get?_concat_length lu _, rfl, rfl⟩
  · rcases eq_or_ne u v with huv | huv
    · subst huv
      refine wNeighbors_contains (wAfterAddEdge g u u w) u u
        (lu ++ [WeightedEdge.mk (u : Int) (u : Int) w,
          WeightedEdge.mk (u : Int) (u : Int) w]) w ?_ ?_ ?_
      · dsimp only [wAfterAddEdge]
        rw [listModify_get?_self _ u _ (by rw [listModify_length]; exact hu'),
          listModify_get?_self _ u _ hu', Option.map_map, hlu]
        simp [Function.comp, List.append_assoc]
      · dsimp only [wAfterAddEdge]
        intro e he
        rcases List.mem_append.mp he with h | h
        · exact (hwf.2 lu (List.get?_mem hlu) e h).2
        · simp only [List.mem_cons, List.not_mem_nil, or_false] at h
          rcases h with rfl | rfl <;>
            exact ⟨by show (0 : Int) ≤ (u : Int); omega,
              by show (u : Int) < (g.vertices.length : Int); omega⟩
      · refine ⟨lu.length, WeightedEdge.mk (u : Int) (u : Int) w, ?_, rfl, rfl⟩
        rw [List.get?_append_right (Nat.le_refl _)]
        simp
    · refine wNeighbors_contains (wAfterAddEdge g u v w) v u
        (lv ++ [WeightedEdge.mk (v : Int) (u : Int) w]) w ?_ ?_ ?_
      · dsimp only [wAfterAddEdge]
        rw [listModify_get?_self _ v _ (by rw [listModify_length]; exact hv'),
          listModify_get?_ne _ v u _ (fun h => huv h.symm), hlv]
        rfl
      · dsimp only [wAfterAddEdge]
        intro e he
        rcases List.mem_append.mp he with h | h
        · exact (hwf.2 lv (List.get?_mem hlv) e h).2
        · obtain rfl := List.mem_singleton.mp h
          exact ⟨by show (0 : Int) ≤ (u : Int); omega,
            by show (u : Int) < (g.vertices.length : Int); omega⟩
      · exact ⟨lv.length, WeightedEdge.mk (v : Int) (u : Int) w,
          List.get?_concat_length lv _, rfl, rfl⟩

/-- C4 (witness): adding edge 0–1 with weight 5 to `wS` puts the pair
(vertex 1's value, 5) among the weighted neighbours of index 0. -/
theorem C4_weighted_mirror_witness :
    ∃ g1 : WeightedGraph Nat Nat,
      wS.add_edge_by_indices ((0 : Nat) : Int) ((1 : Nat) : Int) 5 = (g1, none) ∧
      ∃ xv nu, wS.vertex_at ((1 : Nat) : Int) = .ok xv ∧
        g1.neighbors_for_index_with_weights ((0 : Nat) : Int) = .ok nu ∧
        (xv, 5) ∈ nu := by
  obtain ⟨g1, h1, hmem, _⟩ :=
    C4_weighted_mirror wS 0 1 5 (by decide) (by decide) (by decide)
  exact ⟨g1, h1, hmem⟩

end NetworkingGraph
